import Mathlib

/-!
# The documentation-site configuration of ignition-tfpl

The repository's source is one file, `src/webpage/astro.config.mjs`: it has
three import bindings and one default export, `defineConfig` applied to an
object literal.  The file has no executable logic of its own, so the embedding is the
literal itself, as an untyped JavaScript value tree, together with the
accessors that read it.  Properties of the declaration are then checked on the
tree, not built into a record type.

The second half models the two components the specification describes
(`compose` and `resolve`).  Neither is implemented in the repository; each
definition there says so in its doc comment.
-/

namespace IgnitionTfpl

/-! ## JavaScript values -/

/-- A JavaScript expression as it occurs in the configuration file: a string
literal, an array literal, an object literal (its properties in source order),
or a call of an imported binding. -/
inductive JSValue where
  | str (s : String)
  | arr (xs : List JSValue)
  | obj (fields : List (String × JSValue))
  | call (callee : String) (args : List JSValue)

namespace JSValue

/-- The property names of an object literal, in source order; no names for a
value that is not an object. -/
def keys : JSValue → List String
  | .obj fs => fs.map Prod.fst
  | _ => []

/-- Property lookup in a property list: the first property with that name. -/
def lookup (k : String) : List (String × JSValue) → Option JSValue
  | [] => none
  | (k', v) :: rest => if k' = k then some v else lookup k rest

/-- Property access `v.k`; `none` when `v` is not an object or has no such
property. -/
def field (k : String) : JSValue → Option JSValue
  | .obj fs => lookup k fs
  | _ => none

/-- Whether the object literal has a property of that name. -/
def hasKey (k : String) (v : JSValue) : Bool :=
  (v.field k).isSome

/-- The string of a string literal. -/
def asStr : JSValue → Option String
  | .str s => some s
  | _ => none

/-- The elements of an array literal. -/
def asArr : JSValue → Option (List JSValue)
  | .arr xs => some xs
  | _ => none

/-- The string property `v.k`. -/
def strField (k : String) (v : JSValue) : Option String :=
  (v.field k).bind asStr

/-- The array property `v.k`. -/
def arrField (k : String) (v : JSValue) : Option (List JSValue) :=
  (v.field k).bind asArr

mutual
/-- Every string literal that occurs in a value, in source order. -/
def strings : JSValue → List String
  | .str s => [s]
  | .arr xs => stringsOfList xs
  | .obj fs => stringsOfFields fs
  | .call _ args => stringsOfList args
/-- The string literals of a list of values. -/
def stringsOfList : List JSValue → List String
  | [] => []
  | x :: xs => strings x ++ stringsOfList xs
/-- The string literals of the property values of an object literal. -/
def stringsOfFields : List (String × JSValue) → List String
  | [] => []
  | (_, v) :: fs => strings v ++ stringsOfFields fs
end

end JSValue

/-! ## The source file -/

/-- The import bindings of `astro.config.mjs` (lines 2-4): local name and
module specifier. -/
def importBindings : List (String × String) :=
  [ ("defineConfig", "astro/config"),
    ("starlight", "@astrojs/starlight"),
    ("mermaid", "astro-mermaid") ]

/-- The module an identifier of the file is imported from. -/
def importedFrom (name : String) : Option String :=
  (importBindings.find? (fun b => b.1 == name)).map Prod.snd

/-- The options block passed to `starlight` (lines 11-31).  The `customCss`
line is commented out in the source and so is no property. -/
def starlightOptions : JSValue :=
  .obj [
    ("title", .str "Ignition TF Plugin"),
    ("social", .arr [
      .obj [("icon", .str "github"), ("label", .str "GitHub"),
            ("href", .str "https://github.com/apollogeddon/ignition-tfpl")] ]),
    ("sidebar", .arr [
      .obj [
        ("label", .str "Guides"),
        ("items", .arr [
          .obj [("label", .str "Installation"), ("link", .str "/guides/installation/")],
          .obj [("label", .str "Architecture"), ("link", .str "/guides/architecture/")],
          .obj [("label", .str "Capabilities"), ("link", .str "/guides/capabilities/")] ]) ],
      .obj [
        ("label", .str "Reference"),
        ("autogenerate", .obj [("directory", .str "reference")]) ] ]) ]

/-- The object literal passed to `defineConfig` (lines 7-34). -/
def configRecord : JSValue :=
  .obj [
    ("site", .str "https://apollogeddon.github.io"),
    ("base", .str "/ignition-tfpl"),
    ("integrations", .arr [
      .call "starlight" [starlightOptions],
      .call "mermaid" [] ]) ]

/-- The default export of the file: `defineConfig({ ... })`. -/
def exportDefault : JSValue :=
  .call "defineConfig" [configRecord]

/-! ## Reading the exported configuration -/

/-- The configuration record of an export `defineConfig(record)`. -/
def exportedConfig : JSValue → Option JSValue
  | .call "defineConfig" [c] => some c
  | _ => none

/-- The `integrations` array of the exported configuration. -/
def integrations (e : JSValue) : Option (List JSValue) :=
  (exportedConfig e).bind (JSValue.arrField "integrations")

/-- The callee of an integration entry and its argument list. -/
def calleeAndArgs : JSValue → Option (String × List JSValue)
  | .call f args => some (f, args)
  | _ => none

/-- Whether an integration entry is the documentation theme: a call of the
binding imported from `@astrojs/starlight`. -/
def isThemeProvider (v : JSValue) : Bool :=
  match v with
  | .call f _ => importedFrom f == some "@astrojs/starlight"
  | _ => false

/-- Whether an integration entry is the diagram renderer: a call of the
binding imported from `astro-mermaid`. -/
def isDiagramRenderer (v : JSValue) : Bool :=
  match v with
  | .call f _ => importedFrom f == some "astro-mermaid"
  | _ => false

/-- The options block of the theme extension: the single argument of the first
integration entry that is a theme provider. -/
def themeOptions (e : JSValue) : Option JSValue :=
  match (integrations e).bind (fun l => l.find? isThemeProvider) with
  | some (.call _ [o]) => some o
  | _ => none

/-- The `sidebar` array of the theme options. -/
def sidebar (e : JSValue) : Option (List JSValue) :=
  (themeOptions e).bind (JSValue.arrField "sidebar")

/-- The `social` array of the theme options. -/
def social (e : JSValue) : Option (List JSValue) :=
  (themeOptions e).bind (JSValue.arrField "social")

/-- The `href` strings of the `social` entries, in order. -/
def socialHrefs (e : JSValue) : List String :=
  ((social e).getD []).filterMap (JSValue.strField "href")

/-- The `site` string of the exported configuration. -/
def site (e : JSValue) : Option String :=
  (exportedConfig e).bind (JSValue.strField "site")

/-- The `base` string of the exported configuration. -/
def base (e : JSValue) : Option String :=
  (exportedConfig e).bind (JSValue.strField "base")

/-! ## The sidebar declaration, typed -/

/-- A sidebar link: label and target path. -/
structure LinkItem where
  label : String
  link : String
  deriving DecidableEq, Repr

/-- What a sidebar group carries: explicit items, or a directory to scan. -/
inductive GroupBody where
  | explicit (items : List LinkItem)
  | autogenerate (directory : String)
  deriving DecidableEq, Repr

/-- A sidebar group. -/
structure Group where
  label : String
  body : GroupBody
  deriving DecidableEq, Repr

/-- Reads `{ label, link }`; fails when either property is missing or not a
string. -/
def decodeLinkItem (v : JSValue) : Option LinkItem :=
  match v.strField "label", v.strField "link" with
  | some l, some t => some ⟨l, t⟩
  | _, _ => none

/-- Reads every element of a list, failing when one element fails. -/
def decodeAll {α : Type} (f : JSValue → Option α) : List JSValue → Option (List α)
  | [] => some []
  | x :: xs =>
    match f x, decodeAll f xs with
    | some a, some as => some (a :: as)
    | _, _ => none

/-- Reads a sidebar group.  It fails when the label is missing, when the group
has both `items` and `autogenerate`, and when it has neither. -/
def decodeGroup (v : JSValue) : Option Group :=
  match v.strField "label", v.field "items", v.field "autogenerate" with
  | some l, some (.arr items), none =>
    (decodeAll decodeLinkItem items).map (fun is => ⟨l, .explicit is⟩)
  | some l, none, some a =>
    (a.strField "directory").map (fun d => ⟨l, .autogenerate d⟩)
  | _, _, _ => none

/-- The typed sidebar of an export. -/
def decodeSidebar (e : JSValue) : Option (List Group) :=
  (sidebar e).bind (decodeAll decodeGroup)

/-- The explicit link targets of a typed sidebar, in order. -/
def explicitLinks (gs : List Group) : List String :=
  gs.flatMap (fun g =>
    match g.body with
    | .explicit items => items.map LinkItem.link
    | .autogenerate _ => [])

/-- A group object is well formed on its own: it has a label and exactly one of
`items` and `autogenerate`. -/
def groupShapeOk (v : JSValue) : Bool :=
  (v.strField "label").isSome && (v.hasKey "items" != v.hasKey "autogenerate")

/-- The item objects of a group object (none for an autogenerated group). -/
def groupItems (v : JSValue) : List JSValue :=
  (v.arrField "items").getD []

/-- An item object has both a label and a target path. -/
def itemShapeOk (v : JSValue) : Bool :=
  (v.strField "label").isSome && (v.strField "link").isSome

/-! ## Strings as character lists -/

/-- Whether `pat` occurs in `s` as a contiguous block. -/
def occursIn (pat : List Char) : List Char → Bool
  | [] => pat.isEmpty
  | c :: cs => pat.isPrefixOf (c :: cs) || occursIn pat cs

/-- The number of positions of `s` at which `pat` starts. -/
def occurrences (pat : List Char) : List Char → Nat
  | [] => if pat.isEmpty then 1 else 0
  | c :: cs => (if pat.isPrefixOf (c :: cs) then 1 else 0) + occurrences pat cs

/-- Whether a string carries a URL scheme separator. -/
def hasScheme (s : String) : Bool :=
  occursIn "://".toList s.toList

/-- The pieces of `s` between occurrences of `sep`; `acc` is the current piece,
reversed. -/
def splitAux (sep : Char) (acc : List Char) : List Char → List (List Char)
  | [] => [acc.reverse]
  | c :: cs => if c = sep then acc.reverse :: splitAux sep [] cs else splitAux sep (c :: acc) cs

/-- Splits a character list at every `sep`. -/
def splitAt (sep : Char) (s : List Char) : List (List Char) :=
  splitAux sep [] s

/-- What follows the first `://` of a URL; `none` when there is none. -/
def afterScheme : List Char → Option (List Char)
  | [] => none
  | c :: cs => if "://".toList.isPrefixOf (c :: cs) then some (cs.drop 2) else afterScheme cs

/-- The host of a URL: the piece between `://` and the next `/`. -/
def urlHost (s : String) : Option String :=
  (afterScheme s.toList).bind (fun r => (splitAt '/' r).head?.map String.mk)

/-- The path segments of a URL: the pieces after the host, empty ones dropped. -/
def urlSegments (s : String) : List String :=
  match afterScheme s.toList with
  | some r => (((splitAt '/' r).drop 1).filter (fun p => !p.isEmpty)).map String.mk
  | none => []

/-- Whether a string is an absolute URL that lies outside the given site. -/
def isExternalUrl (siteUrl : String) (s : String) : Bool :=
  hasScheme s && !(siteUrl.toList.isPrefixOf s.toList)

/-! ## The integration pipeline composer of the specification -/

/-- Modelled from the spec: the repository has no composer, only the
`integrations` list a composer would consume.  An extension declaration is a
name, the ordered hooks it registers for, and the exclusive resources it claims
(the part of its options the conflict policy of section 4.1 reads). -/
structure ExtensionDeclaration where
  name : String
  hooks : List String
  exclusive : List String
  deriving DecidableEq, Repr

/-- Modelled from the spec: the error kind of section 7 that `compose` has no
implementation for in the repository; it names the contested resource and both
extensions. -/
inductive ComposeError where
  | duplicateExclusiveCapability (resource first second : String)
  deriving DecidableEq, Repr

/-- Modelled from the spec: the Pipeline of section 3, absent from the
repository: one entry per hook type, each with the extensions bound to that
hook. -/
abbrev Pipeline := List (String × List ExtensionDeclaration)

/-- Modelled from the spec: the first later declaration that claims an
exclusive resource `d` also claims, with that resource (the validation pass of
the absent `compose`). -/
def firstClash (d : ExtensionDeclaration) :
    List ExtensionDeclaration → Option (String × ExtensionDeclaration)
  | [] => none
  | e :: es =>
    match d.exclusive.find? (fun r => decide (r ∈ e.exclusive)) with
    | some r => some (r, e)
    | none => firstClash d es

/-- Modelled from the spec: the first pair of declarations, in declared order,
that claim the same exclusive resource (the conflict policy of the absent
`compose`). -/
def findConflict : List ExtensionDeclaration → Option ComposeError
  | [] => none
  | d :: ds =>
    match firstClash d ds with
    | some (r, e) => some (.duplicateExclusiveCapability r d.name e.name)
    | none => findConflict ds

/-- Modelled from the spec: binding one extension to one hook in the absent
composer: appended to the entry of that hook, or to a new last entry. -/
def addStage (h : String) (d : ExtensionDeclaration) : Pipeline → Pipeline
  | [] => [(h, [d])]
  | (h', ds) :: rest =>
    if h' = h then (h', ds ++ [d]) :: rest else (h', ds) :: addStage h d rest

/-- Modelled from the spec: binding one extension to each hook it registers
for, in the order it lists them (one step of the fold of the absent
`compose`). -/
def bindExtension (p : Pipeline) (d : ExtensionDeclaration) : Pipeline :=
  d.hooks.foldl (fun q h => addStage h d q) p

/-- Modelled from the spec: `compose` of section 4.1, which the repository does
not implement: a validation pass for exclusive resources, then a fold over the
declarations in declared order.  It invokes no hook. -/
def compose (ds : List ExtensionDeclaration) : Except ComposeError Pipeline :=
  match findConflict ds with
  | some e => .error e
  | none => .ok (ds.foldl bindExtension [])

/-- Modelled from the spec: the extensions a pipeline binds to a hook (the
entry of the hook; none when the hook has no entry). -/
def stageOf (h : String) : Pipeline → List ExtensionDeclaration
  | [] => []
  | (h', ds) :: rest => if h' = h then ds else stageOf h rest

/-- Modelled from the spec: the name of the exclusive resource a
documentation theme claims (section 4.1, "sole documentation-theme
provider"). -/
def themeResource : String := "documentation-theme"

/-- Modelled from the spec: the extension declarations of the configured
integrations.  The configuration names the extensions only; the hooks each
registers for are a parameter, and the theme provider is the one extension
that claims the theme resource. -/
def declarationsOf (hooksOf : String → List String) (e : JSValue) :
    List ExtensionDeclaration :=
  ((integrations e).getD []).filterMap (fun v =>
    (calleeAndArgs v).map (fun fa =>
      ⟨fa.1, hooksOf fa.1, if isThemeProvider v then [themeResource] else []⟩))

/-- No two declarations at distinct positions claim a common exclusive
resource. -/
def NoConflict (ds : List ExtensionDeclaration) : Prop :=
  ds.Pairwise (fun a b => ∀ r ∈ a.exclusive, r ∉ b.exclusive)

/-- No stage of the pipeline is empty, and every extension of a stage registers
for the hook of the stage and comes from the given list. -/
def StagesBound (ds : List ExtensionDeclaration) (p : Pipeline) : Prop :=
  ∀ st ∈ p, st.2 ≠ [] ∧ ∀ x ∈ st.2, st.1 ∈ x.hooks ∧ x ∈ ds

/-! ## The navigation tree resolver of the specification -/

/-- Modelled from the spec: a unit of the content collection (section 3); the
repository holds no content index. -/
structure ContentEntry where
  path : String
  title : String
  position : Option Int
  deriving DecidableEq, Repr

/-- Modelled from the spec: a resolved group of the NavigationTree of section
3: a label and a concrete sequence of links. -/
structure ResolvedGroup where
  label : String
  items : List LinkItem
  deriving DecidableEq, Repr

/-- Modelled from the spec: the `UnresolvedLink` problem of section 7, with the
offending path and the label of the owning group. -/
structure UnresolvedLink where
  path : String
  group : String
  deriving DecidableEq, Repr

/-- Modelled from the spec: what the absent `resolve` returns: the tree, and
the problems collected on the way (section 4.2, step 2). -/
structure Resolution where
  tree : List ResolvedGroup
  problems : List UnresolvedLink
  deriving DecidableEq, Repr

/-- Modelled from the spec: a resolution is marked as containing errors when
it carries a problem (section 7). -/
def Resolution.hasErrors (r : Resolution) : Bool :=
  !r.problems.isEmpty

/-- Modelled from the spec: the base prefix of section 6, applied by the absent
resolver once to a path, and not at all to an absolute link (one with a URL
scheme). -/
def withBase (base : String) (target : String) : String :=
  if hasScheme target then target else base ++ target

/-- Modelled from the spec: whether a target exists in the content index
(section 4.2, step 2). -/
def targetExists (contentIndex : List ContentEntry) (target : String) : Bool :=
  contentIndex.any (fun e => e.path == target)

/-- The non-empty segments of a path. -/
def pathSegments (p : String) : List (List Char) :=
  (splitAt '/' p.toList).filter (fun s => !s.isEmpty)

/-- Modelled from the spec: a path is a direct or transitive descendant of a
directory when the segments of the directory are the first segments of the
path and the path has more (section 4.2, step 3). -/
def isDescendant (directory : String) (path : String) : Bool :=
  (pathSegments directory).isPrefixOf (pathSegments path) &&
    decide ((pathSegments directory).length < (pathSegments path).length)

/-- Lexical comparison of character lists by code point: `a` is not after
`b`. -/
def lexLE : List Char → List Char → Bool
  | [], _ => true
  | _ :: _, [] => false
  | a :: as, b :: bs =>
    if a.toNat < b.toNat then true
    else if b.toNat < a.toNat then false
    else lexLE as bs

/-- Modelled from the spec: the order of autogenerated entries (section 4.2,
step 3): entries with a position hint first, by ascending hint; then entries
without, by lexical path; equal hints are ordered by path. -/
def entryLE (a b : ContentEntry) : Bool :=
  match a.position, b.position with
  | some p, some q => decide (p < q) || (decide (p = q) && lexLE a.path.toList b.path.toList)
  | some _, none => true
  | none, some _ => false
  | none, none => lexLE a.path.toList b.path.toList

/-- Insertion of an entry into an ordered list of entries, after the entries it
is not before. -/
def insertEntry (e : ContentEntry) : List ContentEntry → List ContentEntry
  | [] => [e]
  | x :: xs => if entryLE e x then e :: x :: xs else x :: insertEntry e xs

/-- Modelled from the spec: ordering the matched entries (insertion sort by
`entryLE`). -/
def sortEntries : List ContentEntry → List ContentEntry
  | [] => []
  | e :: es => insertEntry e (sortEntries es)

/-- Modelled from the spec: the link derived from a content entry: its title
and its path under the base. -/
def entryLink (base : String) (e : ContentEntry) : LinkItem :=
  ⟨e.title, withBase base e.path⟩

/-- Modelled from the spec: the entries an autogenerate directive selects, in
resolved order. -/
def autogenerated (contentIndex : List ContentEntry) (directory : String) :
    List ContentEntry :=
  sortEntries (contentIndex.filter (fun e => isDescendant directory e.path))

/-- Modelled from the spec: the problems of the explicit items of one group:
one for each item whose target is not in the content index, in item order. -/
def checkItems (contentIndex : List ContentEntry) (group : String) :
    List LinkItem → List UnresolvedLink
  | [] => []
  | i :: is =>
    if targetExists contentIndex i.link then checkItems contentIndex group is
    else ⟨i.link, group⟩ :: checkItems contentIndex group is

/-- Modelled from the spec: resolution of one group (section 4.2, steps 2 and
3): an explicit group keeps every item, its target under the base, and reports
the missing targets; an autogenerated group lists the matching entries and
reports nothing. -/
def resolveGroup (contentIndex : List ContentEntry) (base : String) (g : Group) :
    ResolvedGroup × List UnresolvedLink :=
  match g.body with
  | .explicit items =>
    (⟨g.label, items.map (fun i => ⟨i.label, withBase base i.link⟩)⟩,
      checkItems contentIndex g.label items)
  | .autogenerate directory =>
    (⟨g.label, (autogenerated contentIndex directory).map (entryLink base)⟩, [])

/-- Modelled from the spec: the walk of the absent `resolve` over the groups in
declared order, with the tree and the problems so far. -/
def resolveFrom (contentIndex : List ContentEntry) (base : String) :
    Resolution → List Group → Resolution
  | acc, [] => acc
  | acc, g :: gs =>
    let r := resolveGroup contentIndex base g
    resolveFrom contentIndex base ⟨acc.tree ++ [r.1], acc.problems ++ r.2⟩ gs

/-- Modelled from the spec: `resolve` of section 4.2, which the repository does
not implement, with the base as an explicit argument (section 9).  It always
returns a tree; problems mark the result, they do not abort it. -/
def resolve (spec : List Group) (contentIndex : List ContentEntry) (base : String) :
    Resolution :=
  resolveFrom contentIndex base ⟨[], []⟩ spec

/-- The problems expected for a sidebar: for each explicit group in order, one
problem per item whose target is missing. -/
def missingTargets (contentIndex : List ContentEntry) (spec : List Group) :
    List UnresolvedLink :=
  spec.flatMap (fun g =>
    match g.body with
    | .explicit items =>
      (items.filter (fun i => !targetExists contentIndex i.link)).map
        (fun i => ⟨i.link, g.label⟩)
    | .autogenerate _ => [])

/-! ## The declared configuration -/

/-- C1: the sidebar of the exported configuration is two groups, in this order:
"Guides" with the explicit items Installation, Architecture and Capabilities
and their target paths, then "Reference" with an autogenerate directive over
the directory "reference".  Every group object has a label and exactly one of
`items` and `autogenerate`, and every item object has a label and a link. -/
theorem sidebar_declaration :
    decodeSidebar exportDefault = some
      [ ⟨"Guides", .explicit
          [ ⟨"Installation", "/guides/installation/"⟩,
            ⟨"Architecture", "/guides/architecture/"⟩,
            ⟨"Capabilities", "/guides/capabilities/"⟩ ]⟩,
        ⟨"Reference", .autogenerate "reference"⟩ ] ∧
    (sidebar exportDefault).map List.length = some 2 ∧
    (sidebar exportDefault).map (fun gs => gs.map groupShapeOk) = some [true, true] ∧
    (sidebar exportDefault).map
      (fun gs => gs.map (fun g => (g.hasKey "items", g.hasKey "autogenerate"))) =
        some [(true, false), (false, true)] ∧
    (sidebar exportDefault).map
      (fun gs => gs.map (fun g => (groupItems g).map itemShapeOk)) =
        some [[true, true, true], []] := by
  decide

/-- C2: the integrations list of the exported configuration has exactly two
entries, in this order: `starlight` called with one argument, the options
block, then `mermaid` called with no argument.  The first is the documentation
theme and the second the diagram renderer, so exactly one entry is a theme
provider. -/
theorem integrations_declaration :
    (integrations exportDefault).map
      (fun l => l.map (fun v => (calleeAndArgs v).map (fun fa => (fa.1, fa.2.length)))) =
        some [some ("starlight", 1), some ("mermaid", 0)] ∧
    (themeOptions exportDefault).map JSValue.keys = some ["title", "social", "sidebar"] ∧
    (integrations exportDefault).map (fun l => l.map isThemeProvider) = some [true, false] ∧
    (integrations exportDefault).map (fun l => l.map isDiagramRenderer) = some [false, true] ∧
    (integrations exportDefault).map (fun l => l.countP isThemeProvider) = some 1 := by
  decide

/-- C4: the configuration record has the fields `site`, `base` and
`integrations`: `site` is a URL, `base` a path that starts with a slash, and
`integrations` an array.  The options block of the theme extension has the
fields `title`, `social` and `sidebar`, and every entry of `social` has exactly
the fields `icon`, `label` and `href`, each a string. -/
theorem configuration_shape :
    (exportedConfig exportDefault).map JSValue.keys = some ["site", "base", "integrations"] ∧
    site exportDefault = some "https://apollogeddon.github.io" ∧
    (site exportDefault).map hasScheme = some true ∧
    base exportDefault = some "/ignition-tfpl" ∧
    (base exportDefault).map (fun b => "/".toList.isPrefixOf b.toList) = some true ∧
    (integrations exportDefault).map List.length = some 2 ∧
    (themeOptions exportDefault).map JSValue.keys = some ["title", "social", "sidebar"] ∧
    (themeOptions exportDefault).bind (JSValue.strField "title") = some "Ignition TF Plugin" ∧
    (social exportDefault).map (fun l => l.map JSValue.keys) = some [["icon", "label", "href"]] ∧
    (social exportDefault).map (fun l => l.map (fun s =>
        (s.strField "icon", s.strField "label", s.strField "href"))) =
      some [(some "github", some "GitHub",
        some "https://github.com/apollogeddon/ignition-tfpl")] ∧
    (sidebar exportDefault).map List.length = some 2 := by
  decide

/-- C9: every explicit sidebar link of the configuration begins and ends with a
slash, has no URL scheme and does not begin with the declared base
"/ignition-tfpl", and the base followed by the link contains the base exactly
once.  The strings of the configuration that carry a scheme are `site` and the
social `href`; the only one outside the site is the social `href`, and it is
no sidebar link. -/
theorem sidebar_links_internal :
    ∃ gs b s, decodeSidebar exportDefault = some gs ∧ base exportDefault = some b ∧
      site exportDefault = some s ∧ b = "/ignition-tfpl" ∧
      explicitLinks gs =
        ["/guides/installation/", "/guides/architecture/", "/guides/capabilities/"] ∧
      (∀ l ∈ explicitLinks gs,
        "/".toList.isPrefixOf l.toList = true ∧ "/".toList.isSuffixOf l.toList = true ∧
        hasScheme l = false ∧ b.toList.isPrefixOf l.toList = false ∧
        occurrences b.toList (b ++ l).toList = 1) ∧
      (JSValue.strings exportDefault).filter hasScheme =
        [s, "https://github.com/apollogeddon/ignition-tfpl"] ∧
      (JSValue.strings exportDefault).filter (isExternalUrl s) =
        ["https://github.com/apollogeddon/ignition-tfpl"] ∧
      socialHrefs exportDefault = ["https://github.com/apollogeddon/ignition-tfpl"] ∧
      (∀ h ∈ socialHrefs exportDefault, h ∉ explicitLinks gs) := by
  refine ⟨_, _, _, rfl, rfl, rfl, ?_⟩
  decide

/-- C10: the deployment coordinates agree with a GitHub Pages project site:
`base` is a slash followed by the last path segment of the social `href`
("ignition-tfpl"), the host of `site` is the first path segment of that `href`
followed by ".github.io" ("apollogeddon.github.io"), `site` does not end with a
slash, `base` begins with a slash and does not end with one, and `site`
followed by `base` is "https://apollogeddon.github.io/ignition-tfpl", with no
doubled slash after the scheme. -/
theorem deployment_coordinates :
    ∃ s b h, site exportDefault = some s ∧ base exportDefault = some b ∧
      socialHrefs exportDefault = [h] ∧
      urlHost h = some "github.com" ∧
      urlSegments h = ["apollogeddon", "ignition-tfpl"] ∧
      (urlSegments h).getLast?.map (fun r => "/" ++ r) = some b ∧
      (urlSegments h).head?.map (fun o => o ++ ".github.io") = urlHost s ∧
      urlHost s = some "apollogeddon.github.io" ∧
      urlSegments s = [] ∧
      "/".toList.isSuffixOf s.toList = false ∧
      "/".toList.isPrefixOf b.toList = true ∧
      "/".toList.isSuffixOf b.toList = false ∧
      s ++ b = "https://apollogeddon.github.io/ignition-tfpl" ∧
      urlHost (s ++ b) = urlHost s ∧
      urlSegments (s ++ b) = ["ignition-tfpl"] ∧
      (afterScheme (s ++ b).toList).map (occursIn "//".toList) = some false := by
  refine ⟨_, _, _, rfl, rfl, rfl, ?_⟩
  decide

/-! ## The resolver: the walk over the groups -/

theorem resolveFrom_eq (ci : List ContentEntry) (b : String) (gs : List Group)
    (acc : Resolution) :
    resolveFrom ci b acc gs =
      ⟨acc.tree ++ gs.map (fun g => (resolveGroup ci b g).1),
        acc.problems ++ gs.flatMap (fun g => (resolveGroup ci b g).2)⟩ := by
  induction gs generalizing acc with
  | nil => simp [resolveFrom]
  | cons g gs ih => simp [resolveFrom, ih]

theorem resolve_tree (spec : List Group) (ci : List ContentEntry) (b : String) :
    (resolve spec ci b).tree = spec.map (fun g => (resolveGroup ci b g).1) := by
  simp [resolve, resolveFrom_eq]

theorem resolve_problems (spec : List Group) (ci : List ContentEntry) (b : String) :
    (resolve spec ci b).problems = spec.flatMap (fun g => (resolveGroup ci b g).2) := by
  simp [resolve, resolveFrom_eq]

theorem resolve_tree_get (spec : List Group) (ci : List ContentEntry) (b : String)
    (k : Nat) (g : Group) (hk : spec[k]? = some g) :
    (resolve spec ci b).tree[k]? = some (resolveGroup ci b g).1 := by
  simp [resolve_tree, List.getElem?_map, hk]

theorem checkItems_eq (ci : List ContentEntry) (label : String) (items : List LinkItem) :
    checkItems ci label items =
      (items.filter (fun i => !targetExists ci i.link)).map (fun i => ⟨i.link, label⟩) := by
  induction items with
  | nil => rfl
  | cons i is ih =>
    by_cases h : targetExists ci i.link = true
    · simp [checkItems, h, ih]
    · simp [checkItems, h, ih]

theorem resolve_problems_eq (spec : List Group) (ci : List ContentEntry) (b : String) :
    (resolve spec ci b).problems = missingTargets ci spec := by
  rw [resolve_problems, missingTargets]
  congr 1
  funext g
  cases hg : g.body with
  | explicit items => simp [resolveGroup, hg, checkItems_eq]
  | autogenerate d => simp [resolveGroup, hg]

/-! ## The resolver: the order of autogenerated entries -/

theorem lexLE_total (a b : List Char) : lexLE a b = true ∨ lexLE b a = true := by
  induction a generalizing b with
  | nil => left; simp [lexLE]
  | cons x xs ih =>
    cases b with
    | nil => right; simp [lexLE]
    | cons y ys =>
      simp only [lexLE]
      by_cases h1 : x.toNat < y.toNat
      · left; simp [h1]
      · by_cases h2 : y.toNat < x.toNat
        · right; simp [h2]
        · simp only [h1, h2, if_false]
          exact ih ys

theorem lexLE_trans (a b c : List Char) (hab : lexLE a b = true) (hbc : lexLE b c = true) :
    lexLE a c = true := by
  induction a generalizing b c with
  | nil => simp [lexLE]
  | cons x xs ih =>
    cases b with
    | nil => simp [lexLE] at hab
    | cons y ys =>
      cases c with
      | nil => simp [lexLE] at hbc
      | cons z zs =>
        simp only [lexLE] at hab hbc ⊢
        by_cases h1 : x.toNat < y.toNat
        · by_cases h3 : y.toNat < z.toNat
          · have : x.toNat < z.toNat := by omega
            simp [this]
          · by_cases h4 : z.toNat < y.toNat
            · simp [h3, h4] at hbc
            · have : x.toNat < z.toNat := by omega
              simp [this]
        · by_cases h2 : y.toNat < x.toNat
          · simp [h1, h2] at hab
          · simp only [h1, h2, if_false] at hab
            by_cases h3 : y.toNat < z.toNat
            · have : x.toNat < z.toNat := by omega
              simp [this]
            · by_cases h4 : z.toNat < y.toNat
              · simp [h3, h4] at hbc
              · simp only [h3, h4, if_false] at hbc
                have e1 : ¬ x.toNat < z.toNat := by omega
                have e2 : ¬ z.toNat < x.toNat := by omega
                simp only [e1, e2, if_false]
                exact ih ys zs hab hbc

theorem entryLE_total (a b : ContentEntry) : entryLE a b = true ∨ entryLE b a = true := by
  unfold entryLE
  cases ha : a.position with
  | none =>
    cases hb : b.position with
    | none => simpa using lexLE_total a.path.toList b.path.toList
    | some q => simp
  | some p =>
    cases hb : b.position with
    | none => simp
    | some q =>
      simp only [Bool.or_eq_true, Bool.and_eq_true, decide_eq_true_eq]
      rcases lt_trichotomy p q with h | h | h
      · left; left; exact h
      · rcases lexLE_total a.path.toList b.path.toList with h2 | h2
        · left; right; exact ⟨h, h2⟩
        · right; right; exact ⟨h.symm, h2⟩
      · right; left; exact h

theorem entryLE_trans (a b c : ContentEntry) (hab : entryLE a b = true)
    (hbc : entryLE b c = true) : entryLE a c = true := by
  unfold entryLE at hab hbc ⊢
  cases ha : a.position with
  | none =>
    cases hb : b.position with
    | none =>
      cases hc : c.position with
      | none =>
        simp only [ha, hb, hc] at hab hbc ⊢
        exact lexLE_trans _ _ _ hab hbc
      | some r => simp [hb, hc] at hbc
    | some q => simp [ha, hb] at hab
  | some p =>
    cases hc : c.position with
    | none => simp
    | some r =>
      cases hb : b.position with
      | none => simp [hb, hc] at hbc
      | some q =>
        simp only [ha, hb, hc, Bool.or_eq_true, Bool.and_eq_true, decide_eq_true_eq]
          at hab hbc ⊢
        rcases hab with h1 | ⟨h1, l1⟩
        · rcases hbc with h2 | ⟨h2, _⟩
          · left; omega
          · left; omega
        · rcases hbc with h2 | ⟨h2, l2⟩
          · left; omega
          · right; exact ⟨by omega, lexLE_trans _ _ _ l1 l2⟩

theorem insertEntry_perm (e : ContentEntry) (l : List ContentEntry) :
    (insertEntry e l).Perm (e :: l) := by
  induction l with
  | nil => simp [insertEntry]
  | cons x xs ih =>
    simp only [insertEntry]
    split
    · exact List.Perm.refl _
    · exact (List.Perm.cons x ih).trans (List.Perm.swap e x xs)

theorem sortEntries_perm (l : List ContentEntry) : (sortEntries l).Perm l := by
  induction l with
  | nil => exact List.Perm.refl _
  | cons e es ih =>
    simp only [sortEntries]
    exact (insertEntry_perm e _).trans (List.Perm.cons e ih)

theorem insertEntry_sorted (e : ContentEntry) (l : List ContentEntry)
    (hl : l.Pairwise (fun a b => entryLE a b = true)) :
    (insertEntry e l).Pairwise (fun a b => entryLE a b = true) := by
  induction l with
  | nil => simp [insertEntry]
  | cons x xs ih =>
    rw [List.pairwise_cons] at hl
    simp only [insertEntry]
    split
    · rename_i hex
      refine List.Pairwise.cons ?_ (List.Pairwise.cons hl.1 hl.2)
      intro y hy
      rcases List.mem_cons.mp hy with rfl | hy
      · exact hex
      · exact entryLE_trans _ _ _ hex (hl.1 y hy)
    · rename_i hex
      refine List.Pairwise.cons ?_ (ih hl.2)
      intro y hy
      rcases List.mem_cons.mp ((insertEntry_perm e xs).mem_iff.mp hy) with rfl | hy
      · rcases entryLE_total y x with h | h
        · exact absurd h hex
        · exact h
      · exact hl.1 y hy

theorem sortEntries_sorted (l : List ContentEntry) :
    (sortEntries l).Pairwise (fun a b => entryLE a b = true) := by
  induction l with
  | nil => simp [sortEntries]
  | cons e es ih => exact insertEntry_sorted e _ ih

/-! ## The composer: stages -/

theorem stageOf_addStage (h k : String) (d : ExtensionDeclaration) (p : Pipeline) :
    stageOf h (addStage k d p) = if k = h then stageOf h p ++ [d] else stageOf h p := by
  induction p with
  | nil => by_cases hk : k = h <;> simp [addStage, stageOf, hk]
  | cons st rest ih =>
    obtain ⟨k', ds⟩ := st
    by_cases h1 : k' = k
    · subst h1
      by_cases h2 : k' = h <;> simp [addStage, stageOf, h2]
    · by_cases h2 : k' = h
      · subst h2
        simp [addStage, stageOf, h1, Ne.symm h1]
      · simp [addStage, stageOf, h1, h2, ih]

theorem stageOf_foldl_addStage (h : String) (d : ExtensionDeclaration) (hs : List String)
    (p : Pipeline) :
    stageOf h (hs.foldl (fun q k => addStage k d q) p) =
      stageOf h p ++ List.replicate (hs.count h) d := by
  induction hs generalizing p with
  | nil => simp
  | cons k ks ih =>
    simp only [List.foldl_cons, ih, stageOf_addStage, List.count_cons]
    by_cases hk : k = h
    · simp [hk, List.replicate_succ, List.append_assoc]
    · simp [hk]

theorem stageOf_foldl_bindExtension (h : String) (ds : List ExtensionDeclaration)
    (p : Pipeline) :
    stageOf h (ds.foldl bindExtension p) =
      stageOf h p ++ ds.flatMap (fun d => List.replicate (d.hooks.count h) d) := by
  induction ds generalizing p with
  | nil => simp
  | cons d ds ih =>
    simp only [List.foldl_cons, ih, bindExtension, stageOf_foldl_addStage,
      List.flatMap_cons, List.append_assoc]

theorem replicate_count_nodup (h : String) (d : ExtensionDeclaration)
    (hd : d.hooks.Nodup) :
    List.replicate (d.hooks.count h) d = if h ∈ d.hooks then [d] else [] := by
  by_cases hm : h ∈ d.hooks
  · simp [hm, List.count_eq_one_of_mem hd hm]
  · simp [hm, List.count_eq_zero_of_not_mem hm]

theorem flatMap_replicate_eq_filter (h : String) (ds : List ExtensionDeclaration)
    (hn : ∀ d ∈ ds, d.hooks.Nodup) :
    ds.flatMap (fun d => List.replicate (d.hooks.count h) d) =
      ds.filter (fun d => decide (h ∈ d.hooks)) := by
  induction ds with
  | nil => rfl
  | cons d ds ih =>
    have hd := hn d (List.mem_cons_self _ _)
    have ih2 := ih (fun x hx => hn x (List.mem_cons_of_mem _ hx))
    rw [List.flatMap_cons, ih2, replicate_count_nodup h d hd]
    by_cases hm : h ∈ d.hooks <;> simp [hm, List.filter_cons]

theorem addStage_bound (ds : List ExtensionDeclaration) (k : String)
    (d : ExtensionDeclaration) (hk : k ∈ d.hooks) (hd : d ∈ ds) (p : Pipeline)
    (hp : StagesBound ds p) : StagesBound ds (addStage k d p) := by
  induction p with
  | nil =>
    intro st hst
    simp only [addStage, List.mem_singleton] at hst
    subst hst
    simp [hk, hd]
  | cons s rest ih =>
    obtain ⟨k', xs⟩ := s
    have hs := hp (k', xs) (List.mem_cons_self _ _)
    have hrest : StagesBound ds rest := fun st hst => hp st (List.mem_cons_of_mem _ hst)
    intro st hst
    by_cases h1 : k' = k
    · simp only [addStage, h1, if_true, List.mem_cons] at hst
      rcases hst with rfl | hst
      · refine ⟨by simp, ?_⟩
        intro x hx
        rcases List.mem_append.mp hx with hx | hx
        · have := hs.2 x hx
          exact ⟨h1 ▸ this.1, this.2⟩
        · rw [List.mem_singleton] at hx
          subst hx
          exact ⟨hk, hd⟩
      · exact hrest st hst
    · simp only [addStage, h1, if_false, List.mem_cons] at hst
      rcases hst with rfl | hst
      · exact hs
      · exact ih hrest st hst

theorem foldl_addStage_bound (ds : List ExtensionDeclaration) (d : ExtensionDeclaration)
    (hd : d ∈ ds) (hs : List String) (hsub : ∀ k ∈ hs, k ∈ d.hooks) (p : Pipeline)
    (hp : StagesBound ds p) :
    StagesBound ds (hs.foldl (fun q k => addStage k d q) p) := by
  induction hs generalizing p with
  | nil => exact hp
  | cons k ks ih =>
    simp only [List.foldl_cons]
    exact ih (fun x hx => hsub x (List.mem_cons_of_mem _ hx)) _
      (addStage_bound ds k d (hsub k (List.mem_cons_self _ _)) hd p hp)

theorem foldl_bindExtension_bound (ds es : List ExtensionDeclaration)
    (hes : ∀ d ∈ es, d ∈ ds) (p : Pipeline) (hp : StagesBound ds p) :
    StagesBound ds (es.foldl bindExtension p) := by
  induction es generalizing p with
  | nil => exact hp
  | cons d es ih =>
    simp only [List.foldl_cons]
    exact ih (fun x hx => hes x (List.mem_cons_of_mem _ hx)) _
      (foldl_addStage_bound ds d (hes d (List.mem_cons_self _ _)) d.hooks
        (fun _ hk => hk) p hp)

/-! ## The composer: conflicts -/

theorem firstClash_none (d : ExtensionDeclaration) (es : List ExtensionDeclaration) :
    firstClash d es = none ↔ ∀ e ∈ es, ∀ r ∈ d.exclusive, r ∉ e.exclusive := by
  induction es with
  | nil => simp [firstClash]
  | cons e es ih =>
    simp only [firstClash]
    cases hf : d.exclusive.find? (fun r => decide (r ∈ e.exclusive)) with
    | some r =>
      simp only [false_iff, reduceCtorEq]
      intro hall
      have hr := List.find?_some hf
      have hm := List.mem_of_find?_eq_some hf
      simp only [decide_eq_true_eq] at hr
      exact hall e (List.mem_cons_self _ _) r hm hr
    | none =>
      simp only [ih, List.mem_cons, forall_eq_or_imp]
      rw [List.find?_eq_none] at hf
      constructor
      · intro h
        exact ⟨fun r hr => by simpa using hf r hr, h⟩
      · intro h
        exact h.2

theorem firstClash_some (d : ExtensionDeclaration) (es : List ExtensionDeclaration)
    (r : String) (e : ExtensionDeclaration) (h : firstClash d es = some (r, e)) :
    [e].Sublist es ∧ r ∈ d.exclusive ∧ r ∈ e.exclusive := by
  induction es with
  | nil => simp [firstClash] at h
  | cons x xs ih =>
    simp only [firstClash] at h
    cases hf : d.exclusive.find? (fun r => decide (r ∈ x.exclusive)) with
    | some r' =>
      rw [hf] at h
      simp only [Option.some.injEq, Prod.mk.injEq] at h
      obtain ⟨rfl, rfl⟩ := h
      have hr := List.find?_some hf
      simp only [decide_eq_true_eq] at hr
      exact ⟨by simp, List.mem_of_find?_eq_some hf, hr⟩
    | none =>
      rw [hf] at h
      have := ih h
      exact ⟨this.1.cons x, this.2⟩

theorem findConflict_none (ds : List ExtensionDeclaration) :
    findConflict ds = none ↔ NoConflict ds := by
  induction ds with
  | nil => simp [findConflict, NoConflict]
  | cons d ds ih =>
    simp only [findConflict, NoConflict, List.pairwise_cons]
    cases hf : firstClash d ds with
    | some re =>
      simp only [false_iff, reduceCtorEq, not_and]
      intro hall
      have := (firstClash_none d ds).mpr hall
      rw [hf] at this
      exact absurd this (by simp)
    | none =>
      simp only [ih]
      exact ⟨fun h => ⟨(firstClash_none d ds).mp hf, h⟩, fun h => h.2⟩

theorem findConflict_some (ds : List ExtensionDeclaration) (err : ComposeError)
    (h : findConflict ds = some err) :
    ∃ r x y, err = .duplicateExclusiveCapability r x.name y.name ∧
      [x, y].Sublist ds ∧ r ∈ x.exclusive ∧ r ∈ y.exclusive := by
  induction ds with
  | nil => simp [findConflict] at h
  | cons d ds ih =>
    simp only [findConflict] at h
    cases hf : firstClash d ds with
    | some re =>
      obtain ⟨r, e⟩ := re
      rw [hf] at h
      simp only [Option.some.injEq] at h
      have hc := firstClash_some d ds r e hf
      exact ⟨r, d, e, h.symm, hc.1.cons₂ d, hc.2.1, hc.2.2⟩
    | none =>
      rw [hf] at h
      obtain ⟨r, x, y, he, hs, hx, hy⟩ := ih h
      exact ⟨r, x, y, he, hs.cons d, hx, hy⟩

theorem firstClash_unclaimed (d : ExtensionDeclaration) (es : List ExtensionDeclaration)
    (hd : d.exclusive = []) : firstClash d es = none := by
  rw [firstClash_none]
  intro e _ r hr
  simp [hd] at hr

theorem firstClash_skip (a : ExtensionDeclaration) (mid rest : List ExtensionDeclaration)
    (hmid : ∀ d ∈ mid, d.exclusive = []) :
    firstClash a (mid ++ rest) = firstClash a rest := by
  induction mid with
  | nil => rfl
  | cons m ms ih =>
    have hm := hmid m (List.mem_cons_self _ _)
    have hf : a.exclusive.find? (fun r => decide (r ∈ m.exclusive)) = none := by
      rw [List.find?_eq_none]
      intro r _
      simp [hm]
    simp only [List.cons_append, firstClash, hf]
    exact ih (fun d hd => hmid d (List.mem_cons_of_mem _ hd))

theorem findConflict_skip (pre rest : List ExtensionDeclaration)
    (hpre : ∀ d ∈ pre, d.exclusive = []) :
    findConflict (pre ++ rest) = findConflict rest := by
  induction pre with
  | nil => rfl
  | cons m ms ih =>
    have hm := hpre m (List.mem_cons_self _ _)
    simp only [List.cons_append, findConflict, firstClash_unclaimed m _ hm]
    exact ih (fun d hd => hpre d (List.mem_cons_of_mem _ hd))

theorem addStage_keys (k : String) (d : ExtensionDeclaration) (p : Pipeline) :
    (addStage k d p).map Prod.fst =
      if k ∈ p.map Prod.fst then p.map Prod.fst else p.map Prod.fst ++ [k] := by
  induction p with
  | nil => simp [addStage]
  | cons st rest ih =>
    obtain ⟨k', xs⟩ := st
    by_cases h1 : k' = k
    · simp [addStage, h1]
    · have h2 : ¬ k = k' := fun h => h1 h.symm
      by_cases h3 : k ∈ rest.map Prod.fst
      · simp only [addStage, h1, if_false, List.map_cons, ih, h3, if_true, List.mem_cons,
          or_true]
      · simp only [addStage, h1, if_false, List.map_cons, ih, h3, List.mem_cons, h2,
          or_self, List.cons_append]

theorem addStage_keys_nodup (k : String) (d : ExtensionDeclaration) (p : Pipeline)
    (hp : (p.map Prod.fst).Nodup) : ((addStage k d p).map Prod.fst).Nodup := by
  rw [addStage_keys]
  split
  · exact hp
  · rename_i hk
    rw [List.nodup_append]
    refine ⟨hp, by simp, ?_⟩
    intro x hx hx'
    rw [List.mem_singleton] at hx'
    subst hx'
    exact hk hx

theorem foldl_bindExtension_keys_nodup (es : List ExtensionDeclaration) (p : Pipeline)
    (hp : (p.map Prod.fst).Nodup) : ((es.foldl bindExtension p).map Prod.fst).Nodup := by
  induction es generalizing p with
  | nil => exact hp
  | cons d es ih =>
    simp only [List.foldl_cons]
    apply ih
    unfold bindExtension
    generalize d.hooks = hs
    induction hs generalizing p with
    | nil => exact hp
    | cons k ks ihk =>
      simp only [List.foldl_cons]
      exact ihk _ (addStage_keys_nodup k d p hp)

/-! ## The composer of the specification -/

theorem compose_ok_of_noConflict (ds : List ExtensionDeclaration) (hno : NoConflict ds) :
    compose ds = .ok (ds.foldl bindExtension []) := by
  simp [compose, (findConflict_none ds).mpr hno]

theorem compose_ok_eq (ds : List ExtensionDeclaration) (p : Pipeline)
    (hp : compose ds = .ok p) : p = ds.foldl bindExtension [] ∧ NoConflict ds := by
  unfold compose at hp
  cases hf : findConflict ds with
  | some e => simp [hf] at hp
  | none =>
    simp only [hf, Except.ok.injEq] at hp
    exact ⟨hp.symm, (findConflict_none ds).mp hf⟩

/-- C7, as amended: when two declarations of a list, at distinct positions,
both claim the documentation-theme resource, `compose` fails with a
DuplicateExclusiveCapability error that names two declarations of the list, at
distinct positions, which claim a common exclusive resource (not always the
theme providers: an earlier conflict over another resource is reported
instead), and it returns no pipeline; when no other declaration of the list
claims an exclusive resource, the two named are the two theme providers, in
declared order.  For the integrations of the configuration (the theme
extension, which claims the resource, and the diagram extension, which does
not), whatever hooks they register for, `compose` returns a pipeline. -/
theorem compose_duplicate_theme (ds : List ExtensionDeclaration)
    (a b : ExtensionDeclaration) (hab : [a, b].Sublist ds)
    (ha : themeResource ∈ a.exclusive) (hb : themeResource ∈ b.exclusive) :
    (∃ r x y, compose ds = .error (.duplicateExclusiveCapability r x.name y.name) ∧
      [x, y].Sublist ds ∧ r ∈ x.exclusive ∧ r ∈ y.exclusive) ∧
    (∀ p, compose ds ≠ .ok p) ∧
    (∀ pre mid post, ds = pre ++ a :: (mid ++ b :: post) →
      (∀ d ∈ pre ++ mid ++ post, d.exclusive = []) →
      ∃ r, compose ds = .error (.duplicateExclusiveCapability r a.name b.name) ∧
        r ∈ a.exclusive ∧ r ∈ b.exclusive) ∧
    (∀ hooksOf, ∃ p, compose (declarationsOf hooksOf exportDefault) = .ok p) := by
  have hconf : ¬ NoConflict ds := by
    intro hno
    have hpair : [a, b].Pairwise (fun a b => ∀ r ∈ a.exclusive, r ∉ b.exclusive) :=
      List.Pairwise.sublist hab hno
    simp only [List.pairwise_cons, List.mem_singleton, forall_eq] at hpair
    exact hpair.1 themeResource ha hb
  refine ⟨?_, ?_, ?_, ?_⟩
  · cases hf : findConflict ds with
    | none => exact absurd ((findConflict_none ds).mp hf) hconf
    | some err =>
      obtain ⟨r, x, y, he, hs, hx, hy⟩ := findConflict_some ds err hf
      exact ⟨r, x, y, by simp [compose, hf, he], hs, hx, hy⟩
  · intro p hp
    exact hconf (compose_ok_eq ds p hp).2
  · intro pre mid post hds hun
    have hpre : ∀ d ∈ pre, d.exclusive = [] := fun d hd => hun d (by simp [hd])
    have hmid : ∀ d ∈ mid, d.exclusive = [] := fun d hd => hun d (by simp [hd])
    have hsome : (a.exclusive.find? (fun r => decide (r ∈ b.exclusive))).isSome = true := by
      rw [List.find?_isSome]
      exact ⟨themeResource, ha, by simpa using hb⟩
    obtain ⟨r, hr⟩ := Option.isSome_iff_exists.mp hsome
    have hrb := List.find?_some hr
    simp only [decide_eq_true_eq] at hrb
    refine ⟨r, ?_, List.mem_of_find?_eq_some hr, hrb⟩
    have hfc : firstClash a (mid ++ b :: post) = some (r, b) := by
      rw [firstClash_skip a mid _ hmid]
      simp [firstClash, hr]
    simp [compose, hds, findConflict_skip pre _ hpre, findConflict, hfc]
  · intro hooksOf
    refine ⟨_, compose_ok_of_noConflict _ ?_⟩
    have hd : declarationsOf hooksOf exportDefault =
        [⟨"starlight", hooksOf "starlight", [themeResource]⟩,
          ⟨"mermaid", hooksOf "mermaid", []⟩] := rfl
    rw [hd]
    simp [NoConflict]

/-- C7, as stated, fails: in the list cacheA, cacheB, themeA, themeB the last
two both claim the documentation-theme resource, yet `compose` reports the
earlier conflict over "cache" and names cacheA and cacheB; no error it returns
names themeA and themeB. -/
theorem compose_names_earlier_conflict :
    [(⟨"themeA", ["render"], [themeResource]⟩ : ExtensionDeclaration),
        ⟨"themeB", ["render"], [themeResource]⟩].Sublist
      [⟨"cacheA", ["build"], ["cache"]⟩, ⟨"cacheB", ["build"], ["cache"]⟩,
        ⟨"themeA", ["render"], [themeResource]⟩,
        ⟨"themeB", ["render"], [themeResource]⟩] ∧
    compose [⟨"cacheA", ["build"], ["cache"]⟩, ⟨"cacheB", ["build"], ["cache"]⟩,
        ⟨"themeA", ["render"], [themeResource]⟩,
        ⟨"themeB", ["render"], [themeResource]⟩] =
      .error (.duplicateExclusiveCapability "cache" "cacheA" "cacheB") ∧
    ¬ ∃ r, compose [⟨"cacheA", ["build"], ["cache"]⟩, ⟨"cacheB", ["build"], ["cache"]⟩,
        ⟨"themeA", ["render"], [themeResource]⟩,
        ⟨"themeB", ["render"], [themeResource]⟩] =
      .error (.duplicateExclusiveCapability r "themeA" "themeB") := by
  refine ⟨by decide, rfl, ?_⟩
  rintro ⟨r, hr⟩
  have h0 : compose [⟨"cacheA", ["build"], ["cache"]⟩, ⟨"cacheB", ["build"], ["cache"]⟩,
        ⟨"themeA", ["render"], [themeResource]⟩,
        ⟨"themeB", ["render"], [themeResource]⟩] =
      .error (.duplicateExclusiveCapability "cache" "cacheA" "cacheB") := rfl
  rw [h0] at hr
  have h1 := Except.error.inj hr
  have h2 : "cacheA" = "themeA" := (ComposeError.duplicateExclusiveCapability.inj h1).2.1
  exact absurd h2 (by decide)

theorem compose_duplicate_theme_witness :
    [(⟨"themeA", ["render"], [themeResource]⟩ : ExtensionDeclaration),
        ⟨"themeB", ["render"], [themeResource]⟩].Sublist
      [⟨"themeA", ["render"], [themeResource]⟩, ⟨"diagram", ["transform"], []⟩,
        ⟨"themeB", ["render"], [themeResource]⟩] ∧
    (∃ r, compose [⟨"themeA", ["render"], [themeResource]⟩, ⟨"diagram", ["transform"], []⟩,
        ⟨"themeB", ["render"], [themeResource]⟩] =
      .error (.duplicateExclusiveCapability r "themeA" "themeB") ∧
        r ∈ [themeResource] ∧ r ∈ [themeResource]) :=
  have hs : [(⟨"themeA", ["render"], [themeResource]⟩ : ExtensionDeclaration),
        ⟨"themeB", ["render"], [themeResource]⟩].Sublist
      [⟨"themeA", ["render"], [themeResource]⟩, ⟨"diagram", ["transform"], []⟩,
        ⟨"themeB", ["render"], [themeResource]⟩] := by decide
  ⟨hs, (compose_duplicate_theme _ _ _ hs (by simp) (by simp)).2.2.1
    [] [⟨"diagram", ["transform"], []⟩] [] rfl (by simp)⟩

/-- C8: a pipeline `compose` returns holds, for each hook, the declarations
bound to that hook in the order of the input list, each once for every time it
lists the hook, so that when no declaration lists a hook twice the stage of a
hook is the input list filtered to the declarations bound to it.  The pipeline
has one entry for a hook, every stage
is non-empty and holds only declarations of the input bound to its hook, so a
declaration with no hook is in no stage.  Composing the same list again
returns the same pipeline. -/
theorem compose_preserves_order (ds : List ExtensionDeclaration) (p : Pipeline)
    (hp : compose ds = .ok p) :
    (∀ h, stageOf h p = ds.flatMap (fun d => List.replicate (d.hooks.count h) d)) ∧
    ((∀ d ∈ ds, d.hooks.Nodup) →
      ∀ h, stageOf h p = ds.filter (fun d => decide (h ∈ d.hooks))) ∧
    (p.map Prod.fst).Nodup ∧
    (∀ st ∈ p, st.2 ≠ [] ∧ ∀ x ∈ st.2, st.1 ∈ x.hooks ∧ x ∈ ds) ∧
    (∀ d ∈ ds, d.hooks = [] → ∀ st ∈ p, d ∉ st.2) ∧
    (∀ q, compose ds = .ok q → q = p) := by
  obtain ⟨hpe, _⟩ := compose_ok_eq ds p hp
  have hstage : ∀ h, stageOf h p =
      ds.flatMap (fun d => List.replicate (d.hooks.count h) d) := by
    intro h
    rw [hpe, stageOf_foldl_bindExtension]
    simp [stageOf]
  have hbound : StagesBound ds p := by
    rw [hpe]
    exact foldl_bindExtension_bound ds ds (fun _ hd => hd) [] (by intro st hst; simp at hst)
  refine ⟨hstage, ?_, ?_, hbound, ?_, ?_⟩
  · intro hn h
    rw [hstage h, flatMap_replicate_eq_filter h ds hn]
  · rw [hpe]
    exact foldl_bindExtension_keys_nodup ds [] (by simp)
  · intro d _ hd st hst hmem
    have := ((hbound st hst).2 d hmem).1
    simp [hd] at this
  · intro q hq
    rw [hp] at hq
    exact (Except.ok.inj hq).symm

theorem compose_preserves_order_witness :
    compose [⟨"starlight", ["config", "route"], [themeResource]⟩, ⟨"assets", [], []⟩,
        ⟨"mermaid", ["transform", "route"], []⟩] =
      .ok [("config", [⟨"starlight", ["config", "route"], [themeResource]⟩]),
        ("route", [⟨"starlight", ["config", "route"], [themeResource]⟩,
          ⟨"mermaid", ["transform", "route"], []⟩]),
        ("transform", [⟨"mermaid", ["transform", "route"], []⟩])] ∧
    stageOf "route"
        [("config", [⟨"starlight", ["config", "route"], [themeResource]⟩]),
          ("route", [⟨"starlight", ["config", "route"], [themeResource]⟩,
            ⟨"mermaid", ["transform", "route"], []⟩]),
          ("transform", [⟨"mermaid", ["transform", "route"], []⟩])] =
      ([⟨"starlight", ["config", "route"], [themeResource]⟩, ⟨"assets", [], []⟩,
        ⟨"mermaid", ["transform", "route"], []⟩] : List ExtensionDeclaration).filter
          (fun d => decide ("route" ∈ d.hooks)) :=
  ⟨rfl, (compose_preserves_order
    [⟨"starlight", ["config", "route"], [themeResource]⟩, ⟨"assets", [], []⟩,
      ⟨"mermaid", ["transform", "route"], []⟩]
    [("config", [⟨"starlight", ["config", "route"], [themeResource]⟩]),
      ("route", [⟨"starlight", ["config", "route"], [themeResource]⟩,
        ⟨"mermaid", ["transform", "route"], []⟩]),
      ("transform", [⟨"mermaid", ["transform", "route"], []⟩])]
    rfl).2.1 (by decide) "route"⟩

/-! ## The resolver of the specification -/

/-- C3: with the base declared in the configuration, "/ignition-tfpl", every
link of the tree `resolve` returns, in an explicit group or an autogenerated
one, comes from a declared target or the path of a content entry, and its
resolved path is the base followed by that path when the path has no URL
scheme, and that path unchanged when it has one.  Group by group and item by
item: an explicit group keeps every item in place, an autogenerated group
lists the selected entries in place, each under that rule.  For the declared
sidebar and every content index, the Guides group resolves to the paths
"/ignition-tfpl/guides/installation/", "/ignition-tfpl/guides/architecture/"
and "/ignition-tfpl/guides/capabilities/", each of which contains the base
exactly once, and the Reference group to the selected entries under the same
rule.  Two invocations on the same sidebar, content index and base return the
same result. -/
theorem resolve_base_once (spec : List Group) (ci : List ContentEntry) (b : String)
    (hb : base exportDefault = some b) :
    b = "/ignition-tfpl" ∧
    (∀ rg ∈ (resolve spec ci b).tree, ∀ r ∈ rg.items,
      ∃ t, (t ∈ explicitLinks spec ∨ ∃ e ∈ ci, e.path = t) ∧
        (hasScheme t = false → r.link = "/ignition-tfpl" ++ t) ∧
        (hasScheme t = true → r.link = t)) ∧
    (∀ (k : Nat) (g : Group), spec[k]? = some g →
      ∃ rg, (resolve spec ci b).tree[k]? = some rg ∧ rg.label = g.label ∧
        (∀ items, g.body = .explicit items →
          rg.items.length = items.length ∧
          ∀ (j : Nat) (i : LinkItem), items[j]? = some i →
            ∃ r, rg.items[j]? = some r ∧ r.label = i.label ∧
              (hasScheme i.link = false → r.link = "/ignition-tfpl" ++ i.link) ∧
              (hasScheme i.link = true → r.link = i.link)) ∧
        (∀ directory, g.body = .autogenerate directory →
          rg.items.length = (autogenerated ci directory).length ∧
          ∀ (j : Nat) (e : ContentEntry), (autogenerated ci directory)[j]? = some e →
            ∃ r, rg.items[j]? = some r ∧ r.label = e.title ∧
              (hasScheme e.path = false → r.link = "/ignition-tfpl" ++ e.path) ∧
              (hasScheme e.path = true → r.link = e.path))) ∧
    ((decodeSidebar exportDefault).map (fun gs => (resolve gs ci b).tree) =
      some [
        ⟨"Guides", [⟨"Installation", "/ignition-tfpl/guides/installation/"⟩,
          ⟨"Architecture", "/ignition-tfpl/guides/architecture/"⟩,
          ⟨"Capabilities", "/ignition-tfpl/guides/capabilities/"⟩]⟩,
        ⟨"Reference", (autogenerated ci "reference").map (fun e =>
          ⟨e.title, if hasScheme e.path = true then e.path
            else "/ignition-tfpl" ++ e.path⟩)⟩]) ∧
    (∀ l ∈ ["/ignition-tfpl/guides/installation/", "/ignition-tfpl/guides/architecture/",
        "/ignition-tfpl/guides/capabilities/"],
      occurrences "/ignition-tfpl".toList (String.toList l) = 1) ∧
    (∀ r₁ r₂, r₁ = resolve spec ci b → r₂ = resolve spec ci b → r₁ = r₂) := by
  have hb' : b = "/ignition-tfpl" := by
    have h0 : base exportDefault = some "/ignition-tfpl" := rfl
    rw [h0] at hb
    exact (Option.some.inj hb).symm
  subst hb'
  have hwb : ∀ t : String,
      (hasScheme t = false → withBase "/ignition-tfpl" t = "/ignition-tfpl" ++ t) ∧
      (hasScheme t = true → withBase "/ignition-tfpl" t = t) := by
    intro t
    constructor <;> intro hs <;> simp [withBase, hs]
  refine ⟨rfl, ?_, ?_, ?_, by decide, fun r₁ r₂ h₁ h₂ => h₁.trans h₂.symm⟩
  · intro rg hrg r hr
    rw [resolve_tree, List.mem_map] at hrg
    obtain ⟨g, hg, rfl⟩ := hrg
    cases hbody : g.body with
    | explicit items =>
      simp only [resolveGroup, hbody, List.mem_map] at hr
      obtain ⟨i, hi, rfl⟩ := hr
      refine ⟨i.link, Or.inl ?_, hwb i.link⟩
      rw [explicitLinks, List.mem_flatMap]
      exact ⟨g, hg, by simp only [hbody, List.mem_map]; exact ⟨i, hi, rfl⟩⟩
    | autogenerate d =>
      simp only [resolveGroup, hbody, List.mem_map] at hr
      obtain ⟨e, he, rfl⟩ := hr
      have he2 : e ∈ ci.filter (fun e => isDescendant d e.path) :=
        (sortEntries_perm _).mem_iff.mp he
      exact ⟨e.path, Or.inr ⟨e, (List.mem_filter.mp he2).1, rfl⟩, hwb e.path⟩
  · intro k g hk
    refine ⟨_, resolve_tree_get spec ci _ k g hk, ?_, ?_, ?_⟩
    · cases hbody : g.body <;> simp [resolveGroup, hbody]
    · intro items hbody
      refine ⟨by simp [resolveGroup, hbody], ?_⟩
      intro j i hj
      refine ⟨⟨i.label, withBase "/ignition-tfpl" i.link⟩, ?_, rfl, hwb i.link⟩
      simp [resolveGroup, hbody, List.getElem?_map, hj]
    · intro directory hbody
      refine ⟨by simp [resolveGroup, hbody], ?_⟩
      intro j e hj
      refine ⟨entryLink "/ignition-tfpl" e, ?_, rfl, hwb e.path⟩
      simp [resolveGroup, hbody, List.getElem?_map, hj]
  · have hd : decodeSidebar exportDefault = some
        [ ⟨"Guides", .explicit
            [ ⟨"Installation", "/guides/installation/"⟩,
              ⟨"Architecture", "/guides/architecture/"⟩,
              ⟨"Capabilities", "/guides/capabilities/"⟩ ]⟩,
          ⟨"Reference", .autogenerate "reference"⟩ ] := by decide
    have h3 : ([⟨"Installation", "/guides/installation/"⟩,
          ⟨"Architecture", "/guides/architecture/"⟩,
          ⟨"Capabilities", "/guides/capabilities/"⟩] : List LinkItem).map
          (fun i => (⟨i.label, withBase "/ignition-tfpl" i.link⟩ : LinkItem)) =
        [⟨"Installation", "/ignition-tfpl/guides/installation/"⟩,
          ⟨"Architecture", "/ignition-tfpl/guides/architecture/"⟩,
          ⟨"Capabilities", "/ignition-tfpl/guides/capabilities/"⟩] := by decide
    have hfun : entryLink "/ignition-tfpl" = (fun e : ContentEntry =>
        (⟨e.title, if hasScheme e.path = true then e.path
          else "/ignition-tfpl" ++ e.path⟩ : LinkItem)) := by
      funext e
      simp [entryLink, withBase]
    rw [hd]
    simp only [Option.map_some', resolve_tree, List.map_cons, List.map_nil, resolveGroup,
      h3, hfun]

theorem resolve_base_once_witness :
    base exportDefault = some "/ignition-tfpl" ∧
    (∀ rg ∈ (resolve
        [⟨"Links", .explicit [⟨"Guide", "/guides/installation/"⟩,
          ⟨"Source", "https://github.com/apollogeddon/ignition-tfpl"⟩]⟩,
          ⟨"Reference", .autogenerate "reference"⟩]
        [⟨"/reference/gateway/", "Gateway", some 1⟩] "/ignition-tfpl").tree,
      ∀ r ∈ rg.items,
        ∃ t, (t ∈ explicitLinks
            [⟨"Links", .explicit [⟨"Guide", "/guides/installation/"⟩,
              ⟨"Source", "https://github.com/apollogeddon/ignition-tfpl"⟩]⟩,
              ⟨"Reference", .autogenerate "reference"⟩] ∨
            ∃ e ∈ ([⟨"/reference/gateway/", "Gateway", some 1⟩] : List ContentEntry),
              e.path = t) ∧
          (hasScheme t = false → r.link = "/ignition-tfpl" ++ t) ∧
          (hasScheme t = true → r.link = t)) ∧
    (resolve
        [⟨"Links", .explicit [⟨"Guide", "/guides/installation/"⟩,
          ⟨"Source", "https://github.com/apollogeddon/ignition-tfpl"⟩]⟩,
          ⟨"Reference", .autogenerate "reference"⟩]
        [⟨"/reference/gateway/", "Gateway", some 1⟩] "/ignition-tfpl").tree =
      [⟨"Links", [⟨"Guide", "/ignition-tfpl/guides/installation/"⟩,
          ⟨"Source", "https://github.com/apollogeddon/ignition-tfpl"⟩]⟩,
        ⟨"Reference", [⟨"Gateway", "/ignition-tfpl/reference/gateway/"⟩]⟩] :=
  ⟨rfl, (resolve_base_once
    [⟨"Links", .explicit [⟨"Guide", "/guides/installation/"⟩,
      ⟨"Source", "https://github.com/apollogeddon/ignition-tfpl"⟩]⟩,
      ⟨"Reference", .autogenerate "reference"⟩]
    [⟨"/reference/gateway/", "Gateway", some 1⟩] "/ignition-tfpl" rfl).2.1, by decide⟩

/-- C5: for a group with an autogenerate directive, `resolve` emits, under the
label of the group, the links of exactly the content entries whose path is a
descendant of the directory of the directive (a rearrangement of those
entries), ordered by `entryLE`: entries with a position hint first, by
ascending hint, then entries without, by lexical path, equal hints by path.
When no entry matches, the group is empty, and an autogenerated group reports
no problem: every problem of the resolution comes from an explicit group.  For
the entries a.md (position 2), b.md (position 1) and c.md (no position) the
order is b, a, c. -/
theorem autogenerate_resolution (spec : List Group) (ci : List ContentEntry) (b : String)
    (k : Nat) (label directory : String)
    (hk : spec[k]? = some ⟨label, .autogenerate directory⟩) :
    (∃ es, (resolve spec ci b).tree[k]? = some ⟨label, es.map (entryLink b)⟩ ∧
      es.Perm (ci.filter (fun e => isDescendant directory e.path)) ∧
      es.Pairwise (fun x y => entryLE x y = true) ∧
      ((∀ e ∈ ci, isDescendant directory e.path = false) → es = [])) ∧
    (resolveGroup ci b ⟨label, .autogenerate directory⟩).2 = [] ∧
    (∀ p ∈ (resolve spec ci b).problems,
      ∃ g ∈ spec, ∃ items, g.body = .explicit items ∧ p.group = g.label ∧
        ∃ i ∈ items, i.link = p.path ∧ targetExists ci i.link = false) ∧
    (autogenerated [⟨"reference/a.md", "a", some 2⟩, ⟨"reference/b.md", "b", some 1⟩,
        ⟨"reference/c.md", "c", none⟩] "reference" =
      [⟨"reference/b.md", "b", some 1⟩, ⟨"reference/a.md", "a", some 2⟩,
        ⟨"reference/c.md", "c", none⟩]) ∧
    (autogenerated [⟨"reference/a.md", "a", some 2⟩, ⟨"reference/b.md", "b", some 1⟩,
        ⟨"reference/c.md", "c", none⟩] "missing" = []) := by
  refine ⟨⟨autogenerated ci directory, ?_, sortEntries_perm _, sortEntries_sorted _, ?_⟩,
    rfl, ?_, by decide, by decide⟩
  · rw [resolve_tree_get spec ci b k _ hk]
    simp [resolveGroup]
  · intro hnone
    have : ci.filter (fun e => isDescendant directory e.path) = [] := by
      rw [List.filter_eq_nil_iff]
      intro e he
      simp [hnone e he]
    simp [autogenerated, this, sortEntries]
  · intro p hp
    rw [resolve_problems_eq, missingTargets, List.mem_flatMap] at hp
    obtain ⟨g, hg, hpg⟩ := hp
    cases hbody : g.body with
    | autogenerate d => simp [hbody] at hpg
    | explicit items =>
      simp only [hbody, List.mem_map, List.mem_filter] at hpg
      obtain ⟨i, ⟨hi, hmiss⟩, rfl⟩ := hpg
      exact ⟨g, hg, items, hbody, rfl, i, hi, rfl, by simpa using hmiss⟩

theorem autogenerate_resolution_witness :
    ([⟨"Guides", .explicit []⟩, ⟨"Reference", .autogenerate "reference"⟩] : List Group)[1]? =
      some ⟨"Reference", .autogenerate "reference"⟩ ∧
    (∃ es, (resolve [⟨"Guides", .explicit []⟩, ⟨"Reference", .autogenerate "reference"⟩]
        [⟨"reference/a.md", "a", some 2⟩, ⟨"guides/x.md", "x", none⟩,
          ⟨"reference/sub/b.md", "b", some 1⟩] "/ignition-tfpl").tree[1]? =
        some ⟨"Reference", es.map (entryLink "/ignition-tfpl")⟩ ∧
      es.Perm (([⟨"reference/a.md", "a", some 2⟩, ⟨"guides/x.md", "x", none⟩,
          ⟨"reference/sub/b.md", "b", some 1⟩] : List ContentEntry).filter
        (fun e => isDescendant "reference" e.path)) ∧
      es.Pairwise (fun x y => entryLE x y = true) ∧
      ((∀ e ∈ ([⟨"reference/a.md", "a", some 2⟩, ⟨"guides/x.md", "x", none⟩,
          ⟨"reference/sub/b.md", "b", some 1⟩] : List ContentEntry),
        isDescendant "reference" e.path = false) → es = [])) :=
  ⟨rfl, (autogenerate_resolution _ _ "/ignition-tfpl" 1 "Reference" "reference" rfl).1⟩

/-- C6: `resolve` always returns a tree with one group per declared group, in
declared order and under the declared labels, and every explicit group keeps
all its items, the unresolved ones included.  Its problems are, group by group
and item by item in declared order, one UnresolvedLink for each explicit item
whose target is not in the content index, carrying that target and the label
of the owning group; the result is marked as containing errors exactly when
some explicit item has a missing target.  A group "Guides" whose one item has
the target "/guides/missing/", absent from the content index, yields the one
problem ("/guides/missing/", "Guides"). -/
theorem unresolved_links_reported (spec : List Group) (ci : List ContentEntry)
    (b : String) :
    (resolve spec ci b).problems = missingTargets ci spec ∧
    (resolve spec ci b).tree.map ResolvedGroup.label = spec.map Group.label ∧
    (∀ (k : Nat) (label : String) (items : List LinkItem),
      spec[k]? = some ⟨label, .explicit items⟩ →
      ∃ g, (resolve spec ci b).tree[k]? = some g ∧ g.label = label ∧
        g.items.map LinkItem.label = items.map LinkItem.label ∧
        g.items.map LinkItem.link = items.map (fun i => withBase b i.link)) ∧
    ((resolve spec ci b).hasErrors = true ↔
      ∃ g ∈ spec, ∃ items, g.body = .explicit items ∧
        ∃ i ∈ items, targetExists ci i.link = false) ∧
    (∀ itemLabel, targetExists ci "/guides/missing/" = false →
      resolve [⟨"Guides", .explicit [⟨itemLabel, "/guides/missing/"⟩]⟩] ci b =
        ⟨[⟨"Guides", [⟨itemLabel, withBase b "/guides/missing/"⟩]⟩],
          [⟨"/guides/missing/", "Guides"⟩]⟩) := by
  refine ⟨resolve_problems_eq spec ci b, ?_, ?_, ?_, ?_⟩
  · rw [resolve_tree, List.map_map]
    apply List.map_congr_left
    intro g _
    cases hg : g.body <;> simp [resolveGroup, hg]
  · intro k label items hk
    refine ⟨_, resolve_tree_get spec ci b k _ hk, ?_, ?_, ?_⟩ <;>
      simp [resolveGroup, Function.comp_def]
  · simp only [Resolution.hasErrors, resolve_problems_eq, missingTargets,
      Bool.not_eq_true', List.isEmpty_eq_false_iff_exists_mem, List.mem_flatMap]
    constructor
    · rintro ⟨p, g, hg, hpg⟩
      cases hbody : g.body with
      | autogenerate d => simp [hbody] at hpg
      | explicit items =>
        simp only [hbody, List.mem_map, List.mem_filter] at hpg
        obtain ⟨i, ⟨hi, hmiss⟩, _⟩ := hpg
        exact ⟨g, hg, items, hbody, i, hi, by simpa using hmiss⟩
    · rintro ⟨g, hg, items, hbody, i, hi, hmiss⟩
      refine ⟨⟨i.link, g.label⟩, g, hg, ?_⟩
      simp only [hbody, List.mem_map, List.mem_filter]
      exact ⟨i, ⟨hi, by simp [hmiss]⟩, rfl⟩
  · intro itemLabel hmiss
    simp [resolve, resolveFrom, resolveGroup, checkItems, hmiss]

theorem unresolved_links_reported_witness :
    targetExists [⟨"/guides/installation/", "Installation", none⟩] "/guides/missing/" = false ∧
    resolve [⟨"Guides", .explicit [⟨"Missing", "/guides/missing/"⟩]⟩]
        [⟨"/guides/installation/", "Installation", none⟩] "/ignition-tfpl" =
      ⟨[⟨"Guides", [⟨"Missing", withBase "/ignition-tfpl" "/guides/missing/"⟩]⟩],
        [⟨"/guides/missing/", "Guides"⟩]⟩ :=
  ⟨by decide, (unresolved_links_reported [] _ _).2.2.2.2 "Missing" (by decide)⟩

end IgnitionTfpl
